import Mathlib

/-!
Verification of the contact extraction, validation and deduplication core of
the contact-data-cleaner application (`src/app.py`).

Python strings are modelled as lists of Unicode codepoints (`List Nat`).
The ASCII-relevant parts of Python's `str.strip`, `str.lower`, `str.upper`,
`str.capitalize`, `str.split`, `str.find`, slicing and the regular
expressions `[^\w\s]` / `\s+` used by the code are embedded as executable
Lean functions below.  Each embedded function carries a comment naming the
Python function it translates.
-/

namespace App

/-- Model of a Python string: its sequence of Unicode codepoints. -/
abbrev Str := List Nat

/-- Conversion from a Lean string literal into the codepoint model. -/
def S (s : String) : Str := s.data.map Char.toNat

/-- Python whitespace characters (space, tab, newline, carriage return,
vertical tab, form feed), as recognised by `str.strip` and `\s`. -/
def pyIsSpace (n : Nat) : Bool :=
  n == 32 || n == 9 || n == 10 || n == 13 || n == 11 || n == 12

/-- Characters matched by the regex class `\w` (ASCII model):
letters, digits and underscore. -/
def pyIsWord (n : Nat) : Bool :=
  (48 ≤ n && n ≤ 57) || (65 ≤ n && n ≤ 90) || (97 ≤ n && n ≤ 122) || n == 95

/-- ASCII lower-casing of one codepoint, as done by Python `str.lower`. -/
def toLowerN (n : Nat) : Nat := if 65 ≤ n && n ≤ 90 then n + 32 else n

/-- ASCII upper-casing of one codepoint, as done by Python `str.upper`. -/
def toUpperN (n : Nat) : Nat := if 97 ≤ n && n ≤ 122 then n - 32 else n

/-- Python `str.lower`. -/
def lower (s : Str) : Str := s.map toLowerN

/-- Python `str.upper`. -/
def upper (s : Str) : Str := s.map toUpperN

/-- Python `str.capitalize`: first character upper-cased, rest lower-cased. -/
def capitalize : Str → Str
  | [] => []
  | c :: cs => toUpperN c :: lower cs

/-- Removal of leading whitespace (the left half of Python `str.strip`). -/
def lstrip (s : Str) : Str := s.dropWhile pyIsSpace

/-- Removal of trailing whitespace (the right half of Python `str.strip`). -/
def rstrip : Str → Str
  | [] => []
  | c :: cs =>
    if pyIsSpace c && (rstrip cs).isEmpty then [] else c :: rstrip cs

/-- Python `str.strip` (no argument): remove leading and trailing whitespace. -/
def strip (s : Str) : Str := rstrip (lstrip s)

/-- Whether `pat` occurs at the very start of the first argument
(Python `str.startswith`). -/
def startsWithB : Str → Str → Bool
  | _, [] => true
  | [], _ :: _ => false
  | a :: as, b :: bs => a == b && startsWithB as bs

/-- Whether `pat` occurs as a contiguous substring of the second argument
(Python `in` on strings). -/
def hasSub (pat : Str) : Str → Bool
  | [] => pat.isEmpty
  | c :: cs => startsWithB (c :: cs) pat || hasSub pat cs

/-- Python `str.split(sep)` for a one-character separator: split at every
occurrence, keeping empty pieces; the result always has one more piece
than there are separators. -/
def splitOnC (sep : Nat) : Str → List Str
  | [] => [[]]
  | c :: cs =>
    if c == sep then [] :: splitOnC sep cs
    else
      match splitOnC sep cs with
      | [] => [[c]]
      | t :: ts => (c :: t) :: ts

/-- Python `str.find` for a one-character needle: index of the first
occurrence, `none` standing for Python's `-1`. -/
def findIdx (target : Nat) : Str → Option Nat
  | [] => none
  | c :: cs => if c == target then some 0 else (findIdx target cs).map (· + 1)

/-- Helper for `splitWS`: accumulates the current (reversed) token. -/
def splitWSAux (cur : Str) : Str → List Str
  | [] => if cur.isEmpty then [] else [cur.reverse]
  | c :: cs =>
    if pyIsSpace c then
      if cur.isEmpty then splitWSAux [] cs else cur.reverse :: splitWSAux [] cs
    else splitWSAux (c :: cur) cs

/-- Python `str.split()` with no argument: split on whitespace runs,
dropping empty tokens. -/
def splitWS (s : Str) : List Str := splitWSAux [] s

/-- Python `' '.join(parts)`. -/
def joinSpace : List Str → Str
  | [] => []
  | [s] => s
  | s :: ss => s ++ (32 :: joinSpace ss)

/-- The substitution `re.sub(r'[^\w\s]', ' ', s)`: every character that is
neither a word character nor whitespace becomes a space. -/
def sanitizeChars (s : Str) : Str :=
  s.map (fun c => if pyIsWord c || pyIsSpace c then c else 32)

/-- Helper for `collapseSpaces`; the flag records whether the previous
character was whitespace. -/
def collapseAux : Bool → Str → Str
  | _, [] => []
  | prevSpace, c :: cs =>
    if pyIsSpace c then
      if prevSpace then collapseAux true cs else 32 :: collapseAux true cs
    else c :: collapseAux false cs

/-- The substitution `re.sub(r'\s+', ' ', s)`: each maximal whitespace run
becomes a single space. -/
def collapseSpaces (s : Str) : Str := collapseAux false s

/-- The substring of an email after its first at-sign. -/
def afterAt (e : Str) : Str := (e.dropWhile (fun c => c != 64)).drop 1

/-- Contact record with the five fields produced by the builders in
`src/app.py` (`full_name`, `first_name`, `last_name`, `email`, `domain`);
`domain` is optional because `extract_domain_from_email` can return `None`. -/
structure Contact where
  full_name : Str
  first_name : Str
  last_name : Str
  email : Str
  domain : Option Str
deriving DecidableEq

/-- Translation of `extract_domain_from_email` (src/app.py:503-511):
return `None` for empty input or input without an at-sign, otherwise the
stripped text after the first at-sign. -/
def extract_domain_from_email (email : Str) : Option Str :=
  if email.isEmpty || !(email.contains 64) then none
  else some (strip ((splitOnC 64 email).getD 1 []))

/-- The directory-service marker substrings rejected by the validator
(src/app.py:525). -/
def directoryMarkers : List Str :=
  [S "/O=", S "/OU=", S "/CN=", S "MIDBOROMGMNT",
   S "FIRST ADMINISTRATIVE GROUP", S "RECIPIENTS"]

/-- Translation of `is_valid_email` (src/app.py:514-535) on strings. -/
def is_valid_email (email0 : Str) : Bool :=
  let email := strip email0
  if email.isEmpty || startsWithB email (S "/") then false
  else if !(email.contains 64) || !(email.contains 46) then false
  else if directoryMarkers.any (fun m => hasSub m (upper email)) then false
  else
    let parts := splitOnC 64 email
    if parts.length != 2 then false
    else
      let username := parts.getD 0 []
      let domain := parts.getD 1 []
      if username.isEmpty || domain.isEmpty || !(domain.contains 46) then false
      else true

/-- The validator contract as worded by the specification (§4.1) and claim
C5: non-empty after trimming, does not begin with a slash, contains an
at-sign and a dot, contains none of the directory-service markers
case-insensitively, and splitting on the at-sign yields exactly two
non-empty parts with a dot in the domain part. -/
def is_valid_spec (e0 : Str) : Bool :=
  let e := strip e0
  !e.isEmpty
  && !(startsWithB e (S "/"))
  && e.contains 64
  && e.contains 46
  && directoryMarkers.all (fun m => !(hasSub m (upper e)))
  && (splitOnC 64 e).length == 2
  && !((splitOnC 64 e).getD 0 []).isEmpty
  && !((splitOnC 64 e).getD 1 []).isEmpty
  && ((splitOnC 64 e).getD 1 []).contains 46

/-- A Python runtime value, as far as `is_valid_email`'s `isinstance`
guard can observe it: a string, `None`, an integer, a boolean, or a list. -/
inductive PyValue where
  | pstr (s : Str)
  | pnone
  | pint (n : Int)
  | pbool (b : Bool)
  | plist (l : List Nat)
deriving DecidableEq

/-- Python list indexing `l[i]`, which raises `IndexError` when out of
range; exceptions are modelled with `Except`. -/
def pyIndex (l : List Str) (i : Nat) : Except String Str :=
  match l[i]? with
  | some x => Except.ok x
  | none => Except.error "IndexError"

/-- Translation of the body of `is_valid_email` (src/app.py:516-533) with
exceptions made explicit: the `isinstance` guard rejects non-strings, and
the only indexing operations are modelled through `pyIndex`. -/
def is_valid_checked (v : PyValue) : Except String Bool :=
  match v with
  | PyValue.pstr s => do
    let email := strip s
    if email.isEmpty || startsWithB email (S "/") then return false
    else if !(email.contains 64) || !(email.contains 46) then return false
    else if directoryMarkers.any (fun m => hasSub m (upper email)) then return false
    else
      let parts := splitOnC 64 email
      if parts.length != 2 then return false
      else do
        let username ← pyIndex parts 0
        let domain ← pyIndex parts 1
        if username.isEmpty || domain.isEmpty || !(domain.contains 46) then return false
        else return true
  | _ => Except.ok false

/-- Translation of `is_valid_email` (src/app.py:514-535) on arbitrary
values: the surrounding `try/except` turns any exception into `False`. -/
def is_valid_any (v : PyValue) : Bool :=
  match is_valid_checked v with
  | Except.ok b => b
  | Except.error _ => false

/-- Translation of `create_contact_from_email_only` (src/app.py:439-467). -/
def create_contact_from_email_only (email : Str) : Option Contact :=
  let username := (splitOnC 64 email).getD 0 []
  let fl : Str × Str :=
    if username.contains 46 then
      let parts := splitOnC 46 username
      if 2 ≤ parts.length then (capitalize (parts.getD 0 []), capitalize (parts.getD 1 []))
      else (capitalize username, [])
    else (capitalize username, [])
  some { full_name := capitalize username, first_name := fl.1, last_name := fl.2,
         email := email, domain := extract_domain_from_email email }

/-- The bare-email name derivation as worded by claim C4: if the local-part
contains a dot, split it on the FIRST dot into two segments and capitalize
each segment as first and last name. -/
def from_email_only_specC4 (email : Str) : Option Contact :=
  let username := (splitOnC 64 email).getD 0 []
  let fl : Str × Str :=
    if username.contains 46 then
      (capitalize (username.takeWhile (fun c => c != 46)),
       capitalize ((username.dropWhile (fun c => c != 46)).drop 1))
    else (capitalize username, [])
  some { full_name := capitalize username, first_name := fl.1, last_name := fl.2,
         email := email, domain := extract_domain_from_email email }

/-- The bare-email name derivation as amended: the local-part is split on
every dot and only the first two segments are capitalized as first and last
name; segments beyond the second are discarded. -/
def from_email_only_specC4A (email : Str) : Option Contact :=
  let username := (splitOnC 64 email).getD 0 []
  let segs := splitOnC 46 username
  let fl : Str × Str :=
    if username.contains 46 then (capitalize (segs.getD 0 []), capitalize (segs.getD 1 []))
    else (capitalize username, [])
  some { full_name := capitalize username, first_name := fl.1, last_name := fl.2,
         email := email, domain := extract_domain_from_email email }

/-- Translation of `create_contact_from_name_email` (src/app.py:470-500):
sanitize the display name, fail when fewer than two characters remain,
otherwise split into first and remaining tokens. -/
def create_contact_from_name_email (name_text0 email : Str) : Option Contact :=
  let name_text := strip (collapseSpaces (sanitizeChars name_text0))
  if name_text.isEmpty || name_text.length < 2 then none
  else
    let name_parts := splitWS name_text
    let fl : Str × Str :=
      if 2 ≤ name_parts.length then
        (name_parts.getD 0 [], joinSpace (name_parts.drop 1))
      else (name_text, [])
    some { full_name := name_text, first_name := fl.1, last_name := fl.2,
           email := email, domain := extract_domain_from_email email }

/-- The body of the per-part loop of `extract_multiple_contacts`
(src/app.py:407-429): angle-bracket parts go through the name-and-email
builder, bare-address parts through the email-only builder. -/
def handle_part (contact_part : Str) : Option Contact :=
  if contact_part.contains 60 && contact_part.contains 62 then
    match findIdx 60 contact_part, findIdx 62 contact_part with
    | some email_start, some email_end =>
      let name_text := strip (contact_part.take email_start)
      let email := strip ((contact_part.drop (email_start + 1)).take (email_end - (email_start + 1)))
      if !name_text.isEmpty && !email.isEmpty && is_valid_email email then
        create_contact_from_name_email name_text email
      else none
    | _, _ => none
  else if contact_part.contains 64 && contact_part.contains 46 then
    let email := strip contact_part
    if is_valid_email email then create_contact_from_email_only email else none
  else none

/-- The angle-bracket branch as worded by claim C2: the candidate email is
the text between the first opening bracket and the first CLOSING bracket
AFTER it, the candidate name the text before the opening bracket. -/
def handle_part_specC2 (part : Str) : Option Contact :=
  let name_text := strip (part.takeWhile (fun c => c != 60))
  let email := strip (((part.dropWhile (fun c => c != 60)).drop 1).takeWhile (fun c => c != 62))
  if !name_text.isEmpty && !email.isEmpty && is_valid_email email then
    create_contact_from_name_email name_text email
  else none

/-- The angle-bracket branch as amended: the delimiters are the first
opening bracket and the first closing bracket ANYWHERE in the part; the
candidate email is the text strictly between those two positions (empty
when the closing bracket comes first). -/
def handle_part_specC2A (part : Str) : Option Contact :=
  let ltPos := (part.takeWhile (fun c => c != 60)).length
  let gtPos := (part.takeWhile (fun c => c != 62)).length
  let name_text := strip (part.takeWhile (fun c => c != 60))
  let email := strip ((part.drop (ltPos + 1)).take (gtPos - (ltPos + 1)))
  if !name_text.isEmpty && !email.isEmpty && is_valid_email email then
    create_contact_from_name_email name_text email
  else none

/-- The list of contacts accumulated by the loop of
`extract_multiple_contacts` before the final filter (the `contacts`
variable of src/app.py:397-429). -/
def extract_built (text0 : Str) : List Contact :=
  let text := strip text0
  if text.isEmpty || text == S "nan" || text == S "None" then []
  else
    ((splitOnC 44 text).map strip).filterMap
      (fun p => if p.isEmpty then none else handle_part p)

/-- Translation of `extract_multiple_contacts` (src/app.py:395-436): the
accumulated contacts followed by the final validity filter
(src/app.py:432). -/
def extract_multiple_contacts (text0 : Str) : List Contact :=
  (extract_built text0).filter (fun c => is_valid_email c.email)

/-- Whether a part makes the loop body reach a builder call (used by the
fault model of the `try/except` in `extract_multiple_contacts`). -/
def builder_called (part : Str) : Bool :=
  if part.contains 60 && part.contains 62 then
    match findIdx 60 part, findIdx 62 part with
    | some email_start, some email_end =>
      let name_text := strip (part.take email_start)
      let email := strip ((part.drop (email_start + 1)).take (email_end - (email_start + 1)))
      !name_text.isEmpty && !email.isEmpty && is_valid_email email
    | _, _ => false
  else if part.contains 64 && part.contains 46 then
    is_valid_email (strip part)
  else false

/-- Fault-injected loop of `extract_multiple_contacts`: `oracle k = true`
makes the `k`-th builder invocation raise, which the surrounding
`try/except` (src/app.py:435-436) answers by returning the contacts
accumulated so far; the boolean records whether a fault fired. -/
def efgo (oracle : Nat → Bool) : Nat → List Contact → List Str → List Contact × Bool
  | _, acc, [] => (acc.filter (fun c => is_valid_email c.email), false)
  | k, acc, part :: rest =>
    if part.isEmpty then efgo oracle k acc rest
    else if builder_called part then
      if oracle k then (acc, true)
      else
        match handle_part part with
        | some c => efgo oracle (k + 1) (acc ++ [c]) rest
        | none => efgo oracle (k + 1) acc rest
    else efgo oracle k acc rest

/-- Fault-injected `extract_multiple_contacts`: result list together with
whether an injected exception fired during the run. -/
def extract_fault_run (oracle : Nat → Bool) (text0 : Str) : List Contact × Bool :=
  let text := strip text0
  if text.isEmpty || text == S "nan" || text == S "None" then ([], false)
  else efgo oracle 0 [] ((splitOnC 44 text).map strip)

/-- The deduplication key of a contact: its email stripped then
lower-cased (src/app.py:111). -/
def normKey (c : Contact) : Str := lower (strip c.email)

/-- The deduplication loop of src/app.py:110-116 with its `seen_emails`
set modelled as a list of keys. -/
def dedupeGo (seen : List Str) : List Contact → List Contact
  | [] => []
  | c :: cs =>
    let email := normKey c
    if !email.isEmpty && !(seen.contains email) then
      { c with email := email } :: dedupeGo (email :: seen) cs
    else dedupeGo seen cs

/-- Translation of the deduplication loop (src/app.py:107-116). -/
def dedupe (contacts : List Contact) : List Contact := dedupeGo [] contacts

/-- Deduplication as worded by the specification (§4.5) and claim C1:
skip empty keys, keep the first contact per key with its email replaced by
the key, and drop every later contact carrying the same key. -/
def dedupeSpec : List Contact → List Contact
  | [] => []
  | c :: cs =>
    if (normKey c).isEmpty then dedupeSpec cs
    else
      { c with email := normKey c } ::
        dedupeSpec (cs.filter (fun d => normKey d != normKey c))
termination_by xs => xs.length
decreasing_by
  all_goals simp only [List.length_cons]
  · omega
  · exact Nat.lt_succ_of_le (List.length_filter_le _ _)

/-- The duplicates-removed count reported by the statistics panel
(src/app.py:157): total contacts minus unique contacts. -/
def duplicates_removed (contacts : List Contact) : Nat :=
  contacts.length - (dedupe contacts).length

theorem all_not_any {α : Type} (l : List α) (p : α → Bool) :
    l.all (fun a => !(p a)) = !(l.any p) := by
  induction l with
  | nil => rfl
  | cons a l ih => simp [List.all_cons, List.any_cons, Bool.not_or, ih]

theorem valid_eq_spec (e : Str) : is_valid_email e = is_valid_spec e := by
  simp only [is_valid_email, is_valid_spec, all_not_any, bne]
  cases hA : (strip e).isEmpty <;>
    cases hB : startsWithB (strip e) (S "/") <;>
      cases hC : (strip e).contains 64 <;>
        cases hD : (strip e).contains 46 <;>
          cases hM : directoryMarkers.any (fun m => hasSub m (upper (strip e))) <;>
            cases hL : (splitOnC 64 (strip e)).length == 2 <;>
              cases hU : ((splitOnC 64 (strip e)).getD 0 []).isEmpty <;>
                cases hV : ((splitOnC 64 (strip e)).getD 1 []).isEmpty <;>
                  cases hW : ((splitOnC 64 (strip e)).getD 1 []).contains 46 <;>
                    rfl

/-- C5: the validator accepts exactly when the ordered rule list of the
specification passes, and the two concrete examples behave as stated:
the Exchange-style address is rejected, the plain address accepted. -/
theorem C5_validator_rules :
    (∀ e, is_valid_email e = is_valid_spec e) ∧
    is_valid_email (S "user@/O=ORG/OU=X/CN=RECIPIENTS/CN=JDOE") = false ∧
    is_valid_email (S "jdoe@example.com") = true :=
  ⟨valid_eq_spec, by decide, by decide⟩

theorem pyIndex_ok (l : List Str) (i : Nat) (h : i < l.length) :
    pyIndex l i = Except.ok (l.getD i []) := by
  unfold pyIndex
  rw [List.getD_eq_getElem?_getD, List.getElem?_eq_getElem h]
  rfl

theorem is_valid_checked_str (s : Str) :
    is_valid_checked (PyValue.pstr s) = Except.ok (is_valid_email s) := by
  simp only [is_valid_checked, is_valid_email, bne, apply_ite Except.ok]
  split
  · rfl
  · split
    · rfl
    · split
      · rfl
      · split
        · rfl
        · next h =>
          have hlen2 : ((splitOnC 64 (strip s)).length == 2) = true := by
            revert h
            cases ((splitOnC 64 (strip s)).length == 2) <;> simp
          have hlen : (splitOnC 64 (strip s)).length = 2 := by
            simpa using hlen2
          rw [pyIndex_ok _ 0 (by omega), pyIndex_ok _ 1 (by omega)]
          rfl

/-- C6: the validator body never raises — on every runtime value it
evaluates to an ordinary boolean: the full rule chain for strings, `False`
for every non-string value (`None`, integers, booleans, lists). -/
theorem C6_validator_total :
    (∀ v, ∃ b, is_valid_checked v = Except.ok b) ∧
    (∀ s, is_valid_any (PyValue.pstr s) = is_valid_email s) ∧
    (∀ n : Int, is_valid_any (PyValue.pint n) = false) ∧
    is_valid_any PyValue.pnone = false := by
  refine ⟨fun v => ?_, fun s => ?_, fun n => rfl, rfl⟩
  · cases v with
    | pstr s => exact ⟨is_valid_email s, is_valid_checked_str s⟩
    | pnone => exact ⟨false, rfl⟩
    | pint n => exact ⟨false, rfl⟩
    | pbool b => exact ⟨false, rfl⟩
    | plist l => exact ⟨false, rfl⟩
  · rw [is_valid_any, is_valid_checked_str]

theorem splitOnC_length_pos (sep : Nat) (s : Str) : 1 ≤ (splitOnC sep s).length := by
  induction s with
  | nil => simp [splitOnC]
  | cons c cs ih =>
    simp only [splitOnC]
    split
    · simp
    · split
      · simp
      · simp

theorem contains_splitOnC_two (sep : Nat) (s : Str) (h : s.contains sep = true) :
    2 ≤ (splitOnC sep s).length := by
  induction s with
  | nil => simp [List.contains_nil] at h
  | cons c cs ih =>
    rw [List.contains_cons] at h
    simp only [splitOnC]
    by_cases hc : (c == sep) = true
    · rw [if_pos hc]
      have := splitOnC_length_pos sep cs
      simp only [List.length_cons]
      omega
    · rw [if_neg hc]
      simp only [Bool.or_eq_true, beq_iff_eq] at h hc
      have hcs : cs.contains sep = true := by
        rcases h with h | h
        · exact absurd h.symm hc
        · exact h
      have h2 := ih hcs
      cases hsplit : splitOnC sep cs with
      | nil => rw [hsplit] at h2; simp at h2
      | cons t ts =>
        rw [hsplit] at h2
        simp only [List.length_cons] at h2
        simp only [List.length_cons]
        omega

/-- Counterexample to C4 as stated: on `first.middle.last@x.com` the code
keeps only the first two dot-separated segments (`last_name = "Middle"`),
while splitting on the FIRST dot into two segments would give
`last_name = "Middle.last"`. -/
theorem C4_counterexample :
    is_valid_email (S "first.middle.last@x.com") = true ∧
    create_contact_from_email_only (S "first.middle.last@x.com")
      ≠ from_email_only_specC4 (S "first.middle.last@x.com") := by
  exact ⟨by decide, by decide⟩

/-- C4 (amended): for a validator-approved email the email-only builder
splits the local-part on every dot and capitalizes only the first two
segments as first and last name (segments beyond the second are
discarded); without a dot the whole capitalized local-part becomes the
first name with empty last name, and the full name is always the
capitalized local-part. -/
theorem C4_email_only_names (email : Str) (h : is_valid_email email = true) :
    create_contact_from_email_only email = from_email_only_specC4A email := by
  simp only [create_contact_from_email_only, from_email_only_specC4A]
  by_cases hc : ((splitOnC 64 email).getD 0 []).contains 46 = true
  · rw [if_pos hc, if_pos hc, if_pos (contains_splitOnC_two 46 _ hc)]
  · rw [if_neg hc, if_neg hc]

/-- Concrete instantiation of `C4_email_only_names` at
`jane.doe@example.com`. -/
theorem C4_witness :
    is_valid_email (S "jane.doe@example.com") = true ∧
    create_contact_from_email_only (S "jane.doe@example.com")
      = from_email_only_specC4A (S "jane.doe@example.com") :=
  ⟨by decide, C4_email_only_names _ (by decide)⟩

theorem findIdx_contains (t : Nat) (s : Str) (h : s.contains t = true) :
    findIdx t s = some ((s.takeWhile (fun c => c != t)).length) := by
  induction s with
  | nil => simp [List.contains_nil] at h
  | cons c cs ih =>
    rw [List.contains_cons] at h
    simp only [findIdx, List.takeWhile_cons, bne]
    by_cases hc : (c == t) = true
    · rw [if_pos hc]
      simp [hc]
    · rw [if_neg hc]
      have hcs : cs.contains t = true := by
        simp only [Bool.or_eq_true, beq_iff_eq] at h hc
        rcases h with h | h
        · exact absurd h.symm hc
        · exact h
      rw [ih hcs]
      simp [hc, bne]

theorem take_takeWhile (p : Nat → Bool) (s : Str) :
    s.take ((s.takeWhile p).length) = s.takeWhile p := by
  induction s with
  | nil => rfl
  | cons c cs ih =>
    simp only [List.takeWhile_cons]
    by_cases hc : p c = true
    · rw [if_pos hc]
      simp [List.take_succ_cons, ih]
    · rw [if_neg hc]
      simp

/-- Counterexample to C2 as stated: in the part `Bob > Smith <bob@y.com>`
the first closing bracket precedes the first opening bracket, so the code
slices an empty candidate email and builds nothing, while taking the first
closing bracket AFTER the opening one (as the claim states) would extract
`bob@y.com` and build a contact. -/
theorem C2_counterexample :
    (S "Bob > Smith <bob@y.com>").contains 60 = true ∧
    (S "Bob > Smith <bob@y.com>").contains 62 = true ∧
    handle_part (S "Bob > Smith <bob@y.com>") = none ∧
    handle_part_specC2 (S "Bob > Smith <bob@y.com>") ≠ none ∧
    extract_multiple_contacts (S "Bob > Smith <bob@y.com>") = [] := by
  refine ⟨by decide, by decide, by decide, by decide, by decide⟩

/-- C2 (amended): for a part containing both delimiters, the extractor
uses the first opening bracket and the first closing bracket anywhere in
the part; the text before the opening bracket (trimmed) is the candidate
name and the text strictly between the two positions (trimmed, empty when
the closing bracket comes first) is the candidate email; the
name-and-email builder is invoked exactly when the name is non-empty, the
email is non-empty and the validator accepts the email. -/
theorem C2_angle_extraction (part : Str)
    (h60 : part.contains 60 = true) (h62 : part.contains 62 = true) :
    handle_part part = handle_part_specC2A part := by
  simp only [handle_part, handle_part_specC2A, h60, h62, Bool.and_self, if_true]
  rw [findIdx_contains 60 part h60, findIdx_contains 62 part h62]
  dsimp only
  rw [take_takeWhile]

/-- Concrete instantiation of `C2_angle_extraction` at
`Jane Doe <jane@x.com>`. -/
theorem C2_witness :
    (S "Jane Doe <jane@x.com>").contains 60 = true ∧
    (S "Jane Doe <jane@x.com>").contains 62 = true ∧
    handle_part (S "Jane Doe <jane@x.com>")
      = handle_part_specC2A (S "Jane Doe <jane@x.com>") :=
  ⟨by decide, by decide, C2_angle_extraction _ (by decide) (by decide)⟩

theorem splitOnC_single (sep : Nat) (s : Str)
    (h : (splitOnC sep s).length = 1) : splitOnC sep s = [s] := by
  induction s with
  | nil => rfl
  | cons c cs ih =>
    by_cases hc : (c == sep) = true
    · exfalso
      have hstep : splitOnC sep (c :: cs) = [] :: splitOnC sep cs := by
        simp only [splitOnC]
        rw [if_pos hc]
      rw [hstep, List.length_cons] at h
      have := splitOnC_length_pos sep cs
      omega
    · cases hsplit : splitOnC sep cs with
      | nil =>
        exfalso
        have := splitOnC_length_pos sep cs
        rw [hsplit] at this
        simp at this
      | cons t ts =>
        have hstep : splitOnC sep (c :: cs) = (c :: t) :: ts := by
          simp only [splitOnC]
          rw [if_neg hc, hsplit]
        rw [hstep, List.length_cons] at h
        have hts : ts = [] := List.eq_nil_of_length_eq_zero (by omega)
        subst hts
        have h1 : (splitOnC sep cs).length = 1 := by rw [hsplit]; rfl
        have h2 := ih h1
        rw [hsplit] at h2
        injection h2 with h3 h4
        rw [hstep, h3]

theorem splitOnC_getD1 (sep : Nat) (s : Str)
    (h : (splitOnC sep s).length = 2) :
    (splitOnC sep s).getD 1 [] = (s.dropWhile (fun c => c != sep)).drop 1 := by
  induction s with
  | nil => simp [splitOnC] at h
  | cons c cs ih =>
    by_cases hc : (c == sep) = true
    · have hstep : splitOnC sep (c :: cs) = [] :: splitOnC sep cs := by
        simp only [splitOnC]
        rw [if_pos hc]
      rw [hstep, List.length_cons] at h
      have h1 : (splitOnC sep cs).length = 1 := by omega
      rw [hstep, splitOnC_single sep cs h1,
        List.dropWhile_cons, if_neg (by simp [bne, hc])]
      rfl
    · cases hsplit : splitOnC sep cs with
      | nil =>
        exfalso
        have := splitOnC_length_pos sep cs
        rw [hsplit] at this
        simp at this
      | cons t ts =>
        have hstep : splitOnC sep (c :: cs) = (c :: t) :: ts := by
          simp only [splitOnC]
          rw [if_neg hc, hsplit]
        rw [hstep, List.length_cons] at h
        have h2 : (splitOnC sep cs).length = 2 := by
          rw [hsplit, List.length_cons]
          omega
        have hih := ih h2
        rw [hsplit] at hih
        have hbne : (c != sep) = true := by simp [bne, hc]
        rw [hstep, List.dropWhile_cons, if_pos hbne, ← hih]
        rfl

theorem contains_isEmpty_false (x : Str) (t : Nat) (h : x.contains t = true) :
    x.isEmpty = false := by
  cases x with
  | nil => simp [List.contains_nil] at h
  | cons c cs => rfl

theorem lstrip_contains (x : Str) (t : Nat) (ht : pyIsSpace t = false)
    (h : x.contains t = true) : (lstrip x).contains t = true := by
  induction x with
  | nil => simp [List.contains_nil] at h
  | cons c cs ih =>
    rw [List.contains_cons] at h
    simp only [lstrip, List.dropWhile_cons]
    by_cases hc : pyIsSpace c = true
    · rw [if_pos hc]
      have hne : (t == c) = false := by
        by_contra hne
        simp only [Bool.not_eq_false, beq_iff_eq] at hne
        rw [hne] at ht
        rw [ht] at hc
        cases hc
      rw [hne] at h
      simp only [Bool.false_or] at h
      exact ih h
    · rw [if_neg hc]
      rw [List.contains_cons]
      exact h

theorem rstrip_contains (x : Str) (t : Nat) (ht : pyIsSpace t = false)
    (h : x.contains t = true) : (rstrip x).contains t = true := by
  induction x with
  | nil => simp [List.contains_nil] at h
  | cons c cs ih =>
    rw [List.contains_cons] at h
    simp only [rstrip]
    by_cases hcond : (pyIsSpace c && (rstrip cs).isEmpty) = true
    · simp only [Bool.and_eq_true] at hcond
      have hne : (t == c) = false := by
        by_contra hne
        simp only [Bool.not_eq_false, beq_iff_eq] at hne
        rw [hne] at ht
        rw [ht] at hcond
        exact Bool.noConfusion hcond.1
      rw [hne] at h
      simp only [Bool.false_or] at h
      have := ih h
      rw [List.isEmpty_iff.mp hcond.2] at this
      simp [List.contains_nil] at this
    · rw [if_neg hcond]
      rw [List.contains_cons]
      rcases Bool.or_eq_true_iff.mp h with h1 | h1
      · rw [h1]
        rfl
      · rw [ih h1]
        simp

theorem pyIsSpace_toLowerN (n : Nat) : pyIsSpace (toLowerN n) = pyIsSpace n := by
  unfold toLowerN
  split
  · next h =>
    simp only [Bool.and_eq_true, decide_eq_true_eq] at h
    have h1 : pyIsSpace (n + 32) = false := by
      simp only [pyIsSpace, Bool.or_eq_false_iff, beq_eq_false_iff_ne]
      omega
    have h2 : pyIsSpace n = false := by
      simp only [pyIsSpace, Bool.or_eq_false_iff, beq_eq_false_iff_ne]
      omega
    rw [h1, h2]
  · rfl

theorem toLowerN_idem (n : Nat) : toLowerN (toLowerN n) = toLowerN n := by
  unfold toLowerN
  split
  · next h =>
    simp only [Bool.and_eq_true, decide_eq_true_eq] at h
    have hn : ¬ (n + 32 ≤ 90) := by omega
    simp [hn]
  · rfl

theorem lower_lower (s : Str) : lower (lower s) = lower s := by
  unfold lower
  rw [List.map_map]
  exact List.map_congr_left (fun n _ => toLowerN_idem n)

theorem lstrip_lower (s : Str) : lstrip (lower s) = lower (lstrip s) := by
  induction s with
  | nil => rfl
  | cons c cs ih =>
    simp only [lower, List.map_cons, lstrip, List.dropWhile_cons] at *
    rw [pyIsSpace_toLowerN]
    by_cases h : pyIsSpace c = true
    · simp [h, ih]
    · simp only [Bool.not_eq_true] at h
      simp [h]

theorem rstrip_lower (s : Str) : rstrip (lower s) = lower (rstrip s) := by
  induction s with
  | nil => rfl
  | cons c cs ih =>
    simp only [lower, List.map_cons, rstrip] at *
    rw [pyIsSpace_toLowerN, ih]
    by_cases h : (pyIsSpace c && (rstrip cs).isEmpty) = true
    · simp only [Bool.and_eq_true] at h
      simp [h.1, h.2, lower]
      simp [List.isEmpty_iff] at h
      simp [h.2]
    · simp only [Bool.and_eq_true, not_and] at h
      by_cases hc : pyIsSpace c = true
      · have := h hc
        simp only [List.isEmpty_iff] at this
        have hne : (lower (rstrip cs)).isEmpty = false := by
          simp [List.isEmpty_iff, lower, this]
        simp [hc, hne, lower, this]
      · simp only [Bool.not_eq_true] at hc
        simp [hc, lower]

theorem strip_lower (s : Str) : strip (lower s) = lower (strip s) := by
  unfold strip
  rw [lstrip_lower, rstrip_lower]

theorem lstrip_lstrip (s : Str) : lstrip (lstrip s) = lstrip s := by
  induction s with
  | nil => rfl
  | cons c cs ih =>
    by_cases h : pyIsSpace c = true
    · simp [lstrip, List.dropWhile_cons, h] at *
      exact ih
    · simp only [Bool.not_eq_true] at h
      simp [lstrip, List.dropWhile_cons, h]

theorem rstrip_rstrip (s : Str) : rstrip (rstrip s) = rstrip s := by
  induction s with
  | nil => rfl
  | cons c cs ih =>
    simp only [rstrip]
    by_cases h : (pyIsSpace c && (rstrip cs).isEmpty) = true
    · simp [h, rstrip]
    · simp only [h]
      simp only [Bool.not_eq_true] at h
      simp only [rstrip, ih, h]

theorem lstrip_cases (s : Str) :
    lstrip s = [] ∨ ∃ a t, lstrip s = a :: t ∧ pyIsSpace a = false := by
  induction s with
  | nil => exact Or.inl rfl
  | cons c cs ih =>
    by_cases h : pyIsSpace c = true
    · simpa [lstrip, List.dropWhile_cons, h] using ih
    · simp only [Bool.not_eq_true] at h
      exact Or.inr ⟨c, cs, by simp [lstrip, List.dropWhile_cons, h], h⟩

theorem rstrip_head (a : Nat) (t : Str) :
    rstrip (a :: t) = [] ∨ rstrip (a :: t) = a :: rstrip t := by
  simp only [rstrip]
  split
  · exact Or.inl rfl
  · exact Or.inr rfl

theorem lstrip_rstrip_lstrip (s : Str) :
    lstrip (rstrip (lstrip s)) = rstrip (lstrip s) := by
  rcases lstrip_cases s with h | ⟨a, t, h, ha⟩
  · rw [h]; rfl
  · rw [h]
    rcases rstrip_head a t with h2 | h2
    · rw [h2]; rfl
    · rw [h2]
      simp [lstrip, List.dropWhile_cons, ha]

theorem strip_strip (s : Str) : strip (strip s) = strip s := by
  unfold strip
  rw [lstrip_rstrip_lstrip, rstrip_rstrip]

theorem normKey_stable (e : Str) :
    lower (strip (lower (strip e))) = lower (strip e) := by
  rw [strip_lower, strip_strip, lower_lower]

theorem normKey_update (c : Contact) :
    normKey { c with email := normKey c } = normKey c := by
  simp only [normKey]
  exact normKey_stable c.email

theorem dedupeGo_cons (seen : List Str) (c : Contact) (cs : List Contact) :
    dedupeGo seen (c :: cs) =
      if !(normKey c).isEmpty && !(seen.contains (normKey c)) then
        { c with email := normKey c } :: dedupeGo ((normKey c) :: seen) cs
      else dedupeGo seen cs := rfl

theorem dedupeSpec_cons (c : Contact) (cs : List Contact) :
    dedupeSpec (c :: cs) =
      if (normKey c).isEmpty then dedupeSpec cs
      else
        { c with email := normKey c } ::
          dedupeSpec (cs.filter (fun d => normKey d != normKey c)) := by
  rw [dedupeSpec]

theorem dedupeSpec_nil : dedupeSpec [] = [] := by rw [dedupeSpec]

theorem dedupeGo_spec (cs : List Contact) :
    ∀ seen, dedupeGo seen cs
      = dedupeSpec (cs.filter (fun c => !(seen.contains (normKey c)))) := by
  induction cs with
  | nil => intro seen; rw [List.filter_nil, dedupeSpec_nil]; rfl
  | cons c cs ih =>
    intro seen
    rw [dedupeGo_cons, List.filter_cons]
    by_cases hmem : seen.contains (normKey c) = true
    · rw [hmem]
      simp only [Bool.not_true, Bool.and_false, Bool.false_eq_true, if_false]
      exact ih seen
    · simp only [Bool.not_eq_true] at hmem
      rw [hmem]
      simp only [Bool.not_false, Bool.and_true, if_true]
      by_cases hk : (normKey c).isEmpty = true
      · rw [hk]
        simp only [Bool.not_true, Bool.false_eq_true, if_false]
        rw [ih seen, dedupeSpec_cons, if_pos hk]
      · simp only [Bool.not_eq_true] at hk
        rw [hk]
        simp only [Bool.not_false, if_true]
        rw [ih (normKey c :: seen), dedupeSpec_cons, if_neg (by simp [hk])]
        congr 2
        rw [List.filter_filter]
        refine List.filter_congr (fun d _ => ?_)
        simp only [List.contains_cons, Bool.not_or, bne]

/-- C1: the deduplication loop computes exactly the specification's
description — iterate in input order, key on the stripped lower-cased
email, skip empty keys, keep the first contact per key with its email
replaced by the key and the other fields untouched, preserving
first-occurrence order. -/
theorem C1_dedupe_matches_spec (xs : List Contact) : dedupe xs = dedupeSpec xs := by
  have h := dedupeGo_spec xs []
  simpa using h

theorem dedupeGo_go_idem (cs : List Contact) :
    ∀ seen, dedupeGo seen (dedupeGo seen cs) = dedupeGo seen cs := by
  induction cs with
  | nil => intro seen; rfl
  | cons c cs ih =>
    intro seen
    rw [dedupeGo_cons]
    by_cases h : (!(normKey c).isEmpty && !(seen.contains (normKey c))) = true
    · rw [if_pos h, dedupeGo_cons, normKey_update, h, if_pos rfl]
      have heq : ({ { c with email := normKey c } with email := normKey c } : Contact)
          = { c with email := normKey c } := rfl
      rw [heq, ih]
    · rw [if_neg h, ih]

/-- C7: deduplication is idempotent — applying `dedupe` to the output of
`dedupe xs` yields a result equal to `dedupe xs`. -/
theorem C7_dedupe_idempotent (xs : List Contact) : dedupe (dedupe xs) = dedupe xs :=
  dedupeGo_go_idem xs []

theorem dedupeGo_length (cs : List Contact) :
    ∀ seen, (dedupeGo seen cs).length ≤ cs.length := by
  induction cs with
  | nil => intro seen; exact Nat.le_refl 0
  | cons c cs ih =>
    intro seen
    rw [dedupeGo_cons]
    split
    · simpa using Nat.succ_le_succ (ih _)
    · exact Nat.le_succ_of_le (ih _)

/-- C8: the deduplicated list is never longer than the input, and the
duplicates-removed count reported by the statistics panel equals the
input length minus the output length. -/
theorem C8_dedupe_counts (xs : List Contact) :
    (dedupe xs).length ≤ xs.length ∧
      duplicates_removed xs = xs.length - (dedupe xs).length :=
  ⟨dedupeGo_length xs [], rfl⟩

theorem dedupeGo_mem (cs : List Contact) :
    ∀ seen c', c' ∈ dedupeGo seen cs →
      ∃ c, c ∈ cs ∧ c' = { c with email := normKey c } := by
  induction cs with
  | nil => intro seen c' h; cases h
  | cons c cs ih =>
    intro seen c' h
    rw [dedupeGo_cons] at h
    by_cases hc : (!(normKey c).isEmpty && !(seen.contains (normKey c))) = true
    · rw [if_pos hc] at h
      rcases List.mem_cons.mp h with h1 | h1
      · exact ⟨c, List.mem_cons_self c cs, h1⟩
      · obtain ⟨d, hd, he⟩ := ih _ c' h1
        exact ⟨d, List.mem_cons_of_mem c hd, he⟩
    · rw [if_neg hc] at h
      obtain ⟨d, hd, he⟩ := ih _ c' h
      exact ⟨d, List.mem_cons_of_mem c hd, he⟩

/-- C10: every entry of the deduplicated output is a copy of some input
contact in which only the email field was replaced (by its stripped,
lower-cased form); all name fields and the domain are unchanged.  In this
pure embedding the input list itself is immutable by construction. -/
theorem C10_dedupe_copies (xs : List Contact) (c' : Contact)
    (h : c' ∈ dedupe xs) :
    ∃ c, c ∈ xs ∧ c' = { c with email := lower (strip c.email) } ∧
      c'.full_name = c.full_name ∧ c'.first_name = c.first_name ∧
      c'.last_name = c.last_name ∧ c'.domain = c.domain ∧
      c'.email = lower (strip c.email) := by
  obtain ⟨c, hc, he⟩ := dedupeGo_mem xs [] c' h
  exact ⟨c, hc, he, by rw [he], by rw [he], by rw [he], by rw [he], by rw [he]; rfl⟩

/-- Concrete instantiation of `C10_dedupe_copies`: the single contact with
padded mixed-case email is returned as a copy with normalized email. -/
theorem C10_witness :
    ∃ c, c ∈ [(⟨S "Jane", S "Jane", [], S " A@x.com ", some (S "x.com")⟩ : Contact)] ∧
      (⟨S "Jane", S "Jane", [], S "a@x.com", some (S "x.com")⟩ : Contact)
        = { c with email := lower (strip c.email) } ∧
      (⟨S "Jane", S "Jane", [], S "a@x.com", some (S "x.com")⟩ : Contact).full_name = c.full_name ∧
      (⟨S "Jane", S "Jane", [], S "a@x.com", some (S "x.com")⟩ : Contact).first_name = c.first_name ∧
      (⟨S "Jane", S "Jane", [], S "a@x.com", some (S "x.com")⟩ : Contact).last_name = c.last_name ∧
      (⟨S "Jane", S "Jane", [], S "a@x.com", some (S "x.com")⟩ : Contact).domain = c.domain ∧
      (⟨S "Jane", S "Jane", [], S "a@x.com", some (S "x.com")⟩ : Contact).email = lower (strip c.email) :=
  C10_dedupe_copies _ _ (by decide)

theorem strip_contains (x : Str) (t : Nat) (ht : pyIsSpace t = false)
    (h : x.contains t = true) : (strip x).contains t = true :=
  rstrip_contains _ t ht (lstrip_contains x t ht h)

theorem is_valid_parts (e : Str) (h : is_valid_email e = true) :
    (strip e).isEmpty = false ∧
    (splitOnC 64 (strip e)).length = 2 ∧
    ((splitOnC 64 (strip e)).getD 1 []).isEmpty = false ∧
    ((splitOnC 64 (strip e)).getD 1 []).contains 46 = true ∧
    (strip e).contains 64 = true := by
  rw [valid_eq_spec] at h
  simp only [is_valid_spec, Bool.and_eq_true, Bool.not_eq_true', beq_iff_eq] at h
  obtain ⟨⟨⟨⟨⟨⟨⟨⟨h1, h2⟩, h3⟩, h4⟩, h5⟩, h6⟩, h7⟩, h8⟩, h9⟩ := h
  exact ⟨h1, h6, h8, h9, h3⟩

theorem extract_domain_of_valid (e : Str) (hs : strip e = e)
    (h : is_valid_email e = true) :
    extract_domain_from_email e = some (strip (afterAt e)) ∧
    (strip (afterAt e)).contains 46 = true ∧
    (strip (afterAt e)).isEmpty = false := by
  obtain ⟨hne, hlen, hdne, hdot, hat⟩ := is_valid_parts e h
  rw [hs] at hne hlen hdne hdot hat
  have hget : (splitOnC 64 e).getD 1 [] = afterAt e := splitOnC_getD1 64 e hlen
  have hdot2 : (afterAt e).contains 46 = true := by rw [← hget]; exact hdot
  have hsdot : (strip (afterAt e)).contains 46 = true :=
    strip_contains _ 46 (by decide) hdot2
  refine ⟨?_, hsdot, contains_isEmpty_false _ 46 hsdot⟩
  unfold extract_domain_from_email
  rw [if_neg (by
    simp only [hne, hat, Bool.not_true, Bool.or_false]
    exact Bool.false_ne_true), hget]

theorem cnm_fields (n e : Str) (c : Contact)
    (h : create_contact_from_name_email n e = some c) :
    c.email = e ∧ c.domain = extract_domain_from_email e := by
  unfold create_contact_from_name_email at h
  simp only [] at h
  split at h
  · exact Option.noConfusion h
  · rw [Option.some.injEq] at h
    subst h
    exact ⟨rfl, rfl⟩

theorem ceo_fields (e : Str) (c : Contact)
    (h : create_contact_from_email_only e = some c) :
    c.email = e ∧ c.domain = extract_domain_from_email e := by
  unfold create_contact_from_email_only at h
  rw [Option.some.injEq] at h
  subst h
  exact ⟨rfl, rfl⟩

theorem handle_part_fields (part : Str) (c : Contact)
    (h : handle_part part = some c) :
    strip c.email = c.email ∧ c.domain = extract_domain_from_email c.email := by
  unfold handle_part at h
  split at h
  · split at h
    · simp only [] at h
      split at h
      · obtain ⟨he, hd⟩ := cnm_fields _ _ _ h
        exact ⟨by rw [he, strip_strip], by rw [hd, he]⟩
      · exact Option.noConfusion h
    · exact Option.noConfusion h
  · split at h
    · simp only [] at h
      split at h
      · obtain ⟨he, hd⟩ := ceo_fields _ _ h
        exact ⟨by rw [he, strip_strip], by rw [hd, he]⟩
      · exact Option.noConfusion h
    · exact Option.noConfusion h

theorem extract_mem_built (t : Str) (c : Contact) (h : c ∈ extract_built t) :
    ∃ p, handle_part p = some c := by
  unfold extract_built at h
  simp only [] at h
  split at h
  · cases h
  · obtain ⟨p, hp, hsome⟩ := List.mem_filterMap.mp h
    by_cases he : p.isEmpty = true
    · rw [if_pos he] at hsome
      exact Option.noConfusion hsome
    · rw [if_neg he] at hsome
      exact ⟨p, hsome⟩

/-- Counterexample to C9 as stated: on the field `a@ b.c` (valid for the
heuristic validator despite its inner space) the stored domain is the
STRIPPED text after the at-sign (`b.c`), not the literal substring after
the at-sign (` b.c`). -/
theorem C9_counterexample :
    extract_multiple_contacts (S "a@ b.c")
      = [{ full_name := S "A", first_name := S "A", last_name := [],
           email := S "a@ b.c", domain := some (S "b.c") }] ∧
    afterAt (S "a@ b.c") = S " b.c" ∧
    ¬ (some (S "b.c") = some (S " b.c")) :=
  ⟨by decide, by decide, by decide⟩

/-- C9 (amended): every contact returned by the field extractor has all
five fields (guaranteed by the record type), its email passes the
validator, and its domain is present, non-empty, contains a dot and equals
the stripped substring of the email after the at-sign. -/
theorem C9_extract_domain_invariant (t : Str) (c : Contact)
    (h : c ∈ extract_multiple_contacts t) :
    is_valid_email c.email = true ∧
    c.domain = some (strip (afterAt c.email)) ∧
    (strip (afterAt c.email)).isEmpty = false ∧
    (strip (afterAt c.email)).contains 46 = true := by
  unfold extract_multiple_contacts at h
  obtain ⟨hb, hv⟩ := List.mem_filter.mp h
  obtain ⟨p, hp⟩ := extract_mem_built t c hb
  obtain ⟨hstr, hdom⟩ := handle_part_fields p c hp
  obtain ⟨hd1, hd2, hd3⟩ := extract_domain_of_valid c.email hstr hv
  exact ⟨hv, by rw [hdom, hd1], hd3, hd2⟩

theorem handle_part_none (part : Str) (h : builder_called part = false) :
    handle_part part = none := by
  unfold builder_called at h
  unfold handle_part
  split
  · next hc =>
    rw [if_pos hc] at h
    split
    · next es ee heq1 heq2 =>
      rw [heq1, heq2] at h
      simp only [] at h ⊢
      rw [if_neg (by simp [h])]
    · rfl
  · next hc =>
    rw [if_neg hc] at h
    split
    · next hb =>
      rw [if_pos hb] at h
      simp only []
      rw [if_neg (by simp [h])]
    · rfl

theorem handle_part_valid (part : Str) (c : Contact)
    (h : handle_part part = some c) : is_valid_email c.email = true := by
  unfold handle_part at h
  split at h
  · split at h
    · simp only [] at h
      split at h
      · rename_i hg
        obtain ⟨he, _⟩ := cnm_fields _ _ _ h
        rw [he]
        simp only [Bool.and_eq_true] at hg
        exact hg.2
      · exact Option.noConfusion h
    · exact Option.noConfusion h
  · split at h
    · simp only [] at h
      split at h
      · rename_i hg
        obtain ⟨he, _⟩ := ceo_fields _ _ h
        rw [he]
        exact hg
      · exact Option.noConfusion h
    · exact Option.noConfusion h

theorem efgo_nil (o : Nat → Bool) (k : Nat) (acc : List Contact) :
    efgo o k acc [] = (acc.filter (fun c => is_valid_email c.email), false) := rfl

theorem efgo_cons (o : Nat → Bool) (k : Nat) (acc : List Contact)
    (part : Str) (rest : List Str) :
    efgo o k acc (part :: rest) =
      if part.isEmpty then efgo o k acc rest
      else if builder_called part then
        if o k then (acc, true)
        else
          match handle_part part with
          | some c => efgo o (k + 1) (acc ++ [c]) rest
          | none => efgo o (k + 1) acc rest
      else efgo o k acc rest := rfl

theorem efgo_nofault (parts : List Str) :
    ∀ k acc, efgo (fun _ => false) k acc parts
      = ((acc ++ parts.filterMap (fun p => if p.isEmpty then none else handle_part p)).filter
          (fun c => is_valid_email c.email), false) := by
  induction parts with
  | nil =>
    intro k acc
    rw [efgo_nil, List.filterMap_nil, List.append_nil]
  | cons part rest ih =>
    intro k acc
    by_cases hpe : part.isEmpty = true
    · have hf : (fun p => if p.isEmpty then none else handle_part p) part
          = (none : Option Contact) := by simp [hpe]
      rw [efgo_cons, if_pos hpe, @List.filterMap_cons_none Str Contact (fun p => if p.isEmpty then none else handle_part p) part rest hf]
      exact ih k acc
    · by_cases hbc : builder_called part = true
      · cases hhp : handle_part part with
        | some c =>
          have hf : (fun p => if p.isEmpty then none else handle_part p) part
              = some c := by simp [hpe, hhp]
          have hstep : efgo (fun _ => false) k acc (part :: rest)
              = efgo (fun _ => false) (k + 1) (acc ++ [c]) rest := by
            rw [efgo_cons, if_neg hpe, if_pos hbc, if_neg (by simp), hhp]
          rw [hstep, ih (k + 1) (acc ++ [c]),
            @List.filterMap_cons_some Str Contact (fun p => if p.isEmpty then none else handle_part p) part rest c hf, List.append_assoc]
          rfl
        | none =>
          have hf : (fun p => if p.isEmpty then none else handle_part p) part
              = (none : Option Contact) := by simp [hpe, hhp]
          have hstep : efgo (fun _ => false) k acc (part :: rest)
              = efgo (fun _ => false) (k + 1) acc rest := by
            rw [efgo_cons, if_neg hpe, if_pos hbc, if_neg (by simp), hhp]
          rw [hstep, ih (k + 1) acc, @List.filterMap_cons_none Str Contact (fun p => if p.isEmpty then none else handle_part p) part rest hf]
      · have hnone : handle_part part = none :=
          handle_part_none part (by simpa using hbc)
        have hf : (fun p => if p.isEmpty then none else handle_part p) part
            = (none : Option Contact) := by simp [hpe, hnone]
        rw [efgo_cons, if_neg hpe, if_neg hbc, @List.filterMap_cons_none Str Contact (fun p => if p.isEmpty then none else handle_part p) part rest hf]
        exact ih k acc

theorem extract_fault_nofault (t : Str) :
    extract_fault_run (fun _ => false) t = (extract_multiple_contacts t, false) := by
  unfold extract_fault_run extract_multiple_contacts extract_built
  simp only []
  split
  · rfl
  · rw [efgo_nofault, List.nil_append]

theorem efgo_prefix (parts : List Str) :
    ∀ oracle k acc, (∀ c ∈ acc, is_valid_email c.email = true) →
      ∃ n, (efgo oracle k acc parts).1
        = (acc ++ parts.filterMap (fun p => if p.isEmpty then none else handle_part p)).take n := by
  induction parts with
  | nil =>
    intro oracle k acc hacc
    refine ⟨acc.length, ?_⟩
    rw [efgo_nil, List.filterMap_nil, List.append_nil]
    exact (List.filter_eq_self.mpr hacc).trans (List.take_length acc).symm
  | cons part rest ih =>
    intro oracle k acc hacc
    by_cases hpe : part.isEmpty = true
    · have hf : (fun p => if p.isEmpty then none else handle_part p) part
          = (none : Option Contact) := by simp [hpe]
      rw [efgo_cons, if_pos hpe, @List.filterMap_cons_none Str Contact (fun p => if p.isEmpty then none else handle_part p) part rest hf]
      exact ih oracle k acc hacc
    · by_cases hbc : builder_called part = true
      · by_cases ho : oracle k = true
        · refine ⟨acc.length, ?_⟩
          have hstep : (efgo oracle k acc (part :: rest)).1 = acc := by
            rw [efgo_cons, if_neg hpe, if_pos hbc, if_pos ho]
          rw [hstep]
          exact (List.take_left acc _).symm
        · cases hhp : handle_part part with
          | some c =>
            have hf : (fun p => if p.isEmpty then none else handle_part p) part
                = some c := by simp [hpe, hhp]
            have hstep : (efgo oracle k acc (part :: rest)).1
                = (efgo oracle (k + 1) (acc ++ [c]) rest).1 := by
              rw [efgo_cons, if_neg hpe, if_pos hbc, if_neg ho, hhp]
            have hacc' : ∀ d ∈ acc ++ [c], is_valid_email d.email = true := by
              intro d hd
              rcases List.mem_append.mp hd with hd | hd
              · exact hacc d hd
              · rw [List.mem_singleton.mp hd]
                exact handle_part_valid part c hhp
            obtain ⟨n, hn⟩ := ih oracle (k + 1) (acc ++ [c]) hacc'
            refine ⟨n, ?_⟩
            rw [hstep, hn, @List.filterMap_cons_some Str Contact (fun p => if p.isEmpty then none else handle_part p) part rest c hf, List.append_assoc]
            rfl
          | none =>
            have hf : (fun p => if p.isEmpty then none else handle_part p) part
                = (none : Option Contact) := by simp [hpe, hhp]
            have hstep : (efgo oracle k acc (part :: rest)).1
                = (efgo oracle (k + 1) acc rest).1 := by
              rw [efgo_cons, if_neg hpe, if_pos hbc, if_neg ho, hhp]
            rw [hstep, @List.filterMap_cons_none Str Contact (fun p => if p.isEmpty then none else handle_part p) part rest hf]
            exact ih oracle (k + 1) acc hacc
      · have hnone : handle_part part = none :=
          handle_part_none part (by simpa using hbc)
        have hf : (fun p => if p.isEmpty then none else handle_part p) part
            = (none : Option Contact) := by simp [hpe, hnone]
        rw [efgo_cons, if_neg hpe, if_neg hbc, @List.filterMap_cons_none Str Contact (fun p => if p.isEmpty then none else handle_part p) part rest hf]
        exact ih oracle k acc hacc

/-- Counterexample to C3 as stated: with a fault injected at the second
builder invocation of the field
`Jane Doe <jane@x.com>, Bob Ray <bob@y.com>`, the `try/except` of
`extract_multiple_contacts` answers the error with the contacts
accumulated so far — a non-empty partial result, not an empty sequence. -/
theorem C3_counterexample :
    (extract_fault_run (fun k => k == 1)
      (S "Jane Doe <jane@x.com>, Bob Ray <bob@y.com>")).2 = true ∧
    (extract_fault_run (fun k => k == 1)
      (S "Jane Doe <jane@x.com>, Bob Ray <bob@y.com>")).1 ≠ [] :=
  ⟨by decide, by decide⟩

/-- C3 (amended): whatever builder invocation an unexpected error strikes,
the extractor returns the prefix of contacts accumulated before the error
(a partial result, possibly empty) instead of propagating the exception,
and with no error it returns exactly the normal extraction result; errors
are therefore confined to the field being processed. -/
theorem C3_error_partial (oracle : Nat → Bool) (text : Str) :
    (∃ n, (extract_fault_run oracle text).1 = (extract_built text).take n) ∧
    extract_fault_run (fun _ => false) text = (extract_multiple_contacts text, false) := by
  refine ⟨?_, extract_fault_nofault text⟩
  unfold extract_fault_run extract_built
  simp only []
  split
  · exact ⟨0, rfl⟩
  · have h := efgo_prefix ((splitOnC 44 (strip text)).map strip) oracle 0 []
      (by intro c hc; cases hc)
    rwa [List.nil_append] at h

/-- Concrete instantiation of `C9_extract_domain_invariant` at the field
`jdoe@example.com`. -/
theorem C9_witness :
    is_valid_email (Contact.email ⟨S "Jdoe", S "Jdoe", [], S "jdoe@example.com",
        some (S "example.com")⟩) = true ∧
    Contact.domain ⟨S "Jdoe", S "Jdoe", [], S "jdoe@example.com", some (S "example.com")⟩
      = some (strip (afterAt (Contact.email ⟨S "Jdoe", S "Jdoe", [],
          S "jdoe@example.com", some (S "example.com")⟩))) ∧
    (strip (afterAt (Contact.email ⟨S "Jdoe", S "Jdoe", [], S "jdoe@example.com",
        some (S "example.com")⟩))).isEmpty = false ∧
    (strip (afterAt (Contact.email ⟨S "Jdoe", S "Jdoe", [], S "jdoe@example.com",
        some (S "example.com")⟩))).contains 46 = true :=
  C9_extract_domain_invariant (S "jdoe@example.com") _ (by decide)


end App
